import Mathlib

/-!
Verification of the dnspyjson repository (src/dnspyjson).

The file embeds the JSON encoder of src/dnspyjson/encoder.py (class DNSEncoder,
methods _robust_encode and _encode_rrset) and the entry point
dns_answer_to_json of src/dnspyjson/__init__.py as executable Lean functions
over a model of the Python values the encoder dispatches on, and proves the
specification claims about them.

Modelling conventions:
* Python values reachable by the encoder's isinstance dispatch are the
  inductive `PyVal`.  An RRset is modelled by its `ttl` attribute and its
  `items` list; each item (a dnspython Rdata) is modelled by the association
  list of its slots, i.e. the names returned by `_get_all_slots()` paired with
  the values `getattr` returns for them.  `withToText s` models any object
  whose `to_text` call yields the string `s` (dns.name.Name,
  dns.rdataclass.RdataClass instances, ...).  `rdtype n` models a
  dns.rdatatype.RdataType value (an IntEnum, hence also a Python int).
  `pynone` models Python None.  Python float values never appear in any claim
  and are omitted from the universe.
* Raised exceptions are the `Except` error results of `EncErr`.
* `bytes.decode('utf-8')` (a Python builtin) is modelled by an executable
  strict UTF-8 decoder returning `Option String` (none = UnicodeDecodeError).
* Python iterates `set(slots)` in an unspecified (hash-based) order and each
  name exactly once; the model iterates the slot pairs deduplicated by name,
  keeping the first binding for a name, which is what `getattr` returns.  No
  claim depends on the iteration order of that set.
-/

namespace Dnspyjson

/-- Model of the Python values the DNSEncoder dispatches on. -/
inductive PyVal where
  | int : Int → PyVal
  | bool : Bool → PyVal
  | str : String → PyVal
  | bytes : List Nat → PyVal
  | pySet : List PyVal → PyVal
  | pyList : List PyVal → PyVal
  | tuple : List PyVal → PyVal
  | dict : List (String × PyVal) → PyVal
  | rdtype : Nat → PyVal
  | withToText : String → PyVal
  | pynone : PyVal
  | rrset : Int → List (List (String × PyVal)) → PyVal

/-- A dnspython Rdata as seen by the encoder: its slot names with their values. -/
abbrev Rdata := List (String × PyVal)

/-- Python exceptions the encoder can raise. -/
inductive EncErr where
  | typeError
  | valueError
  | unicodeDecodeError
deriving DecidableEq

/-- Whether a byte is a UTF-8 continuation byte. -/
def utf8Cont (b : Nat) : Bool := 0x80 ≤ b && b ≤ 0xBF

/-- Strict UTF-8 decoding of a byte list to code points (fuel = list length;
each successful step consumes at least one byte, so the fuel never runs out on
the initial call).  Overlong encodings, surrogates and code points beyond
U+10FFFF are rejected, as Python's strict `bytes.decode('utf-8')` does. -/
def decodeUtf8Go : Nat → List Nat → Option (List Nat)
  | _, [] => some []
  | 0, _ :: _ => none
  | fuel+1, b :: rest =>
    if b ≤ 0x7F then
      (decodeUtf8Go fuel rest).map (fun cps => b :: cps)
    else if 0xC2 ≤ b && b ≤ 0xDF then
      match rest with
      | b1 :: rest2 =>
        if utf8Cont b1 then
          (decodeUtf8Go fuel rest2).map (fun cps => ((b - 0xC0) * 0x40 + (b1 - 0x80)) :: cps)
        else none
      | [] => none
    else if 0xE0 ≤ b && b ≤ 0xEF then
      match rest with
      | b1 :: b2 :: rest2 =>
        if utf8Cont b1 && utf8Cont b2 then
          let cp := (b - 0xE0) * 0x1000 + (b1 - 0x80) * 0x40 + (b2 - 0x80)
          if 0x800 ≤ cp && !(0xD800 ≤ cp && cp ≤ 0xDFFF) then
            (decodeUtf8Go fuel rest2).map (fun cps => cp :: cps)
          else none
        else none
      | _ => none
    else if 0xF0 ≤ b && b ≤ 0xF4 then
      match rest with
      | b1 :: b2 :: b3 :: rest2 =>
        if utf8Cont b1 && utf8Cont b2 && utf8Cont b3 then
          let cp := (b - 0xF0) * 0x40000 + (b1 - 0x80) * 0x1000 + (b2 - 0x80) * 0x40 + (b3 - 0x80)
          if 0x10000 ≤ cp && cp ≤ 0x10FFFF then
            (decodeUtf8Go fuel rest2).map (fun cps => cp :: cps)
          else none
        else none
      | _ => none
    else none

/-- Model of the Python builtin `bytes.decode('utf-8')`: `some` the decoded
string, `none` when the bytes are not valid UTF-8 (UnicodeDecodeError). -/
def decodeUtf8 (bs : List Nat) : Option String :=
  (decodeUtf8Go bs.length bs).map (fun cps => String.mk (cps.map Char.ofNat))

/-- Modelled from the external dnspython library: `dns.rdatatype.to_text`,
called by the source at encoder.py line 118.  It yields the registered
mnemonic for known type codes and a generic TYPE<n> text for other codes in
the 16-bit range; outside that range the library cannot produce a text, which
the model renders as `none` (the case the source guards with its ValueError).
Only the shape some/none is load-bearing for the claims. -/
def rdatatypeToText (n : Nat) : Option String :=
  if n ≤ 0xFFFF then
    some (match n with
      | 1 => "A"
      | 2 => "NS"
      | 5 => "CNAME"
      | 6 => "SOA"
      | 12 => "PTR"
      | 15 => "MX"
      | 16 => "TXT"
      | 28 => "AAAA"
      | m => "TYPE" ++ toString m)
  else none

/-- Modelled from the external dnspython library: `RRset.to_text` produces a
textual rendering of a record set.  Only the fact that it yields a string
matters to the encoder, so the rendering is abstracted to a summary string. -/
def rrsetToText (ttl : Int) (items : List Rdata) : String :=
  "<RRset ttl=" ++ toString ttl ++ " n=" ++ toString items.length ++ ">"

/-- Python dict assignment `d[k] = v`: overwrite the existing binding in
place, or append a new one. -/
def dictInsert (d : List (String × PyVal)) (k : String) (v : PyVal) :
    List (String × PyVal) :=
  if d.any (fun kv => kv.1 == k) then
    d.map (fun kv => if kv.1 == k then (k, v) else kv)
  else d ++ [(k, v)]

/-- Python dict lookup `d[k]` as an Option. -/
def lookupKey (d : List (String × PyVal)) (k : String) : Option PyVal :=
  (d.find? (fun kv => kv.1 == k)).map (fun kv => kv.2)

/-- Helper for `dedupKeys`: drop pairs whose name was already seen. -/
def dedupKeysGo (seen : List String) : List (String × PyVal) → List (String × PyVal)
  | [] => []
  | kv :: rest =>
    if kv.1 ∈ seen then dedupKeysGo seen rest
    else kv :: dedupKeysGo (kv.1 :: seen) rest

/-- Deduplicate slot pairs by name, keeping the first binding of each name.
This realizes the source's `for slot in set(slots)` loop together with the
`getattr(answer, slot)` lookups (one visit per distinct name, and `getattr`
is deterministic, so duplicate slot names share one value). -/
def dedupKeys (l : List (String × PyVal)) : List (String × PyVal) :=
  dedupKeysGo [] l

/-- The list comprehension of encoder.py line 128:
`[v.decode('utf-8') for v in value if isinstance(v, bytes)]` — keep only the
bytes elements, decode each, and raise UnicodeDecodeError on invalid bytes. -/
def decodeBytesList : List PyVal → Except EncErr (List String)
  | [] => .ok []
  | PyVal.bytes bs :: rest =>
    match decodeUtf8 bs with
    | some s => (decodeBytesList rest).map (fun ss => s :: ss)
    | none => .error EncErr.unicodeDecodeError
  | _ :: rest => decodeBytesList rest

/-- One slot-value conversion of DNSEncoder._encode_rrset (encoder.py lines
111-152): the RdataType / set,tuple / bytes if-elif cascade, then the list
comprehension keeping only decoded bytes, then the `to_text` fallback, then
the KNOWN_TYPES check — which only writes a warning to stderr and stores the
value unchanged (line 152 runs in every case). -/
def encodeSlot (value : PyVal) : Except EncErr PyVal := do
  let value1 : PyVal ←
    match value with
    | .rdtype n =>
      match rdatatypeToText n with
      | some s => pure (PyVal.str s)
      | none => throw EncErr.valueError
    | .pySet xs => pure (PyVal.pyList xs)
    | .tuple xs => pure (PyVal.pyList xs)
    | .bytes bs =>
      match decodeUtf8 bs with
      | some s => pure (PyVal.str s)
      | none => throw EncErr.unicodeDecodeError
    | v => pure v
  let value2 : PyVal ←
    match value1 with
    | .pyList xs => do
      let ss ← decodeBytesList xs
      pure (PyVal.pyList (ss.map PyVal.str))
    | v => pure v
  let value3 : PyVal :=
    match value2 with
    | .withToText s => PyVal.str s
    | .rrset ttl items => PyVal.str (rrsetToText ttl items)
    | v => v
  pure value3

/-- The slot loop of DNSEncoder._encode_rrset (encoder.py lines 102-152):
starting from the record `{'ttl': ttl}`, visit each distinct slot name, skip
the names in `skip` (the encoder's `_skipkeys`), and assign the converted
value into the record. -/
def encodeSlots (skip : List String) (record : List (String × PyVal)) :
    List (String × PyVal) → Except EncErr (List (String × PyVal))
  | [] => .ok record
  | (k, v) :: rest =>
    if k ∈ skip then encodeSlots skip record rest
    else do
      let v2 ← encodeSlot v
      encodeSlots skip (dictInsert record k v2) rest

/-- The record built by DNSEncoder._encode_rrset for one RRset item: the
hoisted `ttl` key followed by the converted slots. -/
def encodeItem (skip : List String) (ttl : Int) (slots : Rdata) :
    Except EncErr (List (String × PyVal)) :=
  encodeSlots skip [("ttl", PyVal.int ttl)] (dedupKeys slots)

/-- The item loop of DNSEncoder._encode_rrset: one record per item of the
RRset, in iteration order. -/
def encodeRRitems (skip : List String) (ttl : Int) :
    List Rdata → Except EncErr (List PyVal)
  | [] => .ok []
  | item :: rest => do
    let r ← encodeItem skip ttl item
    let rest2 ← encodeRRitems skip ttl rest
    pure (PyVal.dict r :: rest2)

/-- DNSEncoder._encode_rrset (encoder.py lines 86-155): raise TypeError unless
the argument is an RRset, otherwise return the list of per-item records. -/
def encode_rrset (skip : List String) : PyVal → Except EncErr PyVal
  | .rrset ttl items => (encodeRRitems skip ttl items).map PyVal.pyList
  | _ => .error EncErr.typeError

mutual

/-- DNSEncoder._robust_encode (encoder.py lines 55-84): the recursive
type-dispatching encoder.  `skip` is the encoder's `_skipkeys` set.  Note:
* a RdataType value is an IntEnum, hence `isinstance(obj, int)` holds and the
  first branch returns it unchanged;
* an object with a `to_text` method (dns.name.Name, ...) is rendered by it;
* anything else falls through to `json.JSONEncoder.default`, which raises
  TypeError. -/
def robustEncode (skip : List String) : PyVal → Except EncErr PyVal
  | .int n => .ok (.int n)
  | .str s => .ok (.str s)
  | .bool b => .ok (.bool b)
  | .rdtype n => .ok (.rdtype n)
  | .bytes bs =>
    match decodeUtf8 bs with
    | some s => .ok (.str s)
    | none => .error EncErr.unicodeDecodeError
  | .pySet xs => (robustEncodeList skip xs).map PyVal.pyList
  | .pyList xs => (robustEncodeList skip xs).map PyVal.pyList
  | .tuple xs => (robustEncodeList skip xs).map PyVal.pyList
  | .dict kvs => (robustEncodeDict skip kvs).map PyVal.dict
  | .rrset ttl items => encode_rrset skip (.rrset ttl items)
  | .withToText s => .ok (.str s)
  | .pynone => .error EncErr.typeError

/-- The list comprehension of encoder.py line 69:
`[self._robust_encode(o) for o in obj]`. -/
def robustEncodeList (skip : List String) : List PyVal → Except EncErr (List PyVal)
  | [] => .ok []
  | x :: xs => do
    let y ← robustEncode skip x
    let ys ← robustEncodeList skip xs
    pure (y :: ys)

/-- The dict comprehension of encoder.py line 72:
`{k: self._robust_encode(v) for k, v in obj.items() if k not in self._skipkeys}`. -/
def robustEncodeDict (skip : List String) :
    List (String × PyVal) → Except EncErr (List (String × PyVal))
  | [] => .ok []
  | (k, v) :: rest =>
    if k ∈ skip then robustEncodeDict skip rest
    else do
      let v2 ← robustEncode skip v
      let rest2 ← robustEncodeDict skip rest
      pure ((k, v2) :: rest2)

end

/-- The `_skipkeys` set computed by DNSEncoder.__init__ (encoder.py line 46). -/
def skipkeysOf (includeRdcomment : Bool) : List String :=
  if includeRdcomment = false then ["rdcomment"] else []

/-- A dns.resolver.Answer as dns_answer_to_json uses it: its `__dict__`. -/
structure Answer where
  dict : List (String × PyVal)

/-- The argument of dns_answer_to_json: a dns.resolver.Answer instance or any
other Python value. -/
inductive PyArg where
  | answer : Answer → PyArg
  | other : PyVal → PyArg

/-- Model of dnspyjson.dns_answer_to_json (src/dnspyjson/__init__.py lines
19-81).  The isinstance guard raises TypeError for a non-Answer argument
before anything else runs.  For an Answer, the two artificial fields are
assigned into `__dict__` (the datetime values, external to the repository,
are the string parameters `isoExpiration` and `nowIso`), the `response` key
is filtered out unless requested, and the prepared dictionary is serialized
with DNSEncoder — the external json.dumps driver combined with the encoder is
modelled as `robustEncode` of the prepared dictionary. -/
def dns_answer_to_json (includeResponseBlob includeRdcomment : Bool)
    (isoExpiration nowIso : String) : PyArg → Except EncErr PyVal
  | .other _ => .error EncErr.typeError
  | .answer a =>
    let excludeKeys : List String := if includeResponseBlob = true then [] else ["response"]
    let dict1 := dictInsert a.dict "isoformat_expiration" (PyVal.str isoExpiration)
    let dict2 := dictInsert dict1 "request_timestamp" (PyVal.str nowIso)
    let prepared := dict2.filter (fun kv => !(excludeKeys.contains kv.1))
    robustEncode (skipkeysOf includeRdcomment) (PyVal.dict prepared)

/-! ### Output and input predicates used by the claims -/

mutual

/-- A value consisting only of JSON primitives: strings, numbers, booleans,
and lists / string-keyed mappings thereof.  A RdataType value is an int
subclass and is serialized as a JSON number, so it counts as a number. -/
def isJsonValue : PyVal → Bool
  | .int _ => true
  | .bool _ => true
  | .str _ => true
  | .rdtype _ => true
  | .pyList xs => isJsonList xs
  | .dict kvs => isJsonPairs kvs
  | _ => false

/-- Every element is a JSON value. -/
def isJsonList : List PyVal → Bool
  | [] => true
  | x :: xs => isJsonValue x && isJsonList xs

/-- Every mapping value is a JSON value. -/
def isJsonPairs : List (String × PyVal) → Bool
  | [] => true
  | kv :: rest => isJsonValue kv.2 && isJsonPairs rest

end

mutual

/-- No dictionary anywhere inside the value has the key `key`. -/
def noKey (key : String) : PyVal → Bool
  | .pySet xs => noKeyList key xs
  | .pyList xs => noKeyList key xs
  | .tuple xs => noKeyList key xs
  | .dict kvs => noKeyPairs key kvs
  | .rrset _ items => noKeyItems key items
  | _ => true

/-- `noKey` for every element. -/
def noKeyList (key : String) : List PyVal → Bool
  | [] => true
  | x :: xs => noKey key x && noKeyList key xs

/-- No pair is named `key`, and no value contains it. -/
def noKeyPairs (key : String) : List (String × PyVal) → Bool
  | [] => true
  | kv :: rest => (kv.1 != key) && noKey key kv.2 && noKeyPairs key rest

/-- `noKeyPairs` for the slots of every item. -/
def noKeyItems (key : String) : List (List (String × PyVal)) → Bool
  | [] => true
  | item :: rest => noKeyPairs key item && noKeyItems key rest

end

mutual

/-- Every slot value of every RRset reachable through the collections the
encoder recurses into satisfies `p`.  Slot values themselves are not recursed
into, because _encode_rrset never re-enters _robust_encode on them. -/
def slotsOK (p : PyVal → Bool) : PyVal → Bool
  | .pySet xs => slotsOKList p xs
  | .pyList xs => slotsOKList p xs
  | .tuple xs => slotsOKList p xs
  | .dict kvs => slotsOKPairs p kvs
  | .rrset _ items => slotsOKItems p items
  | _ => true

/-- `slotsOK` for every element. -/
def slotsOKList (p : PyVal → Bool) : List PyVal → Bool
  | [] => true
  | x :: xs => slotsOK p x && slotsOKList p xs

/-- `slotsOK` for every mapping value. -/
def slotsOKPairs (p : PyVal → Bool) : List (String × PyVal) → Bool
  | [] => true
  | kv :: rest => slotsOK p kv.2 && slotsOKPairs p rest

/-- Every slot value of every item satisfies `p`. -/
def slotsOKItems (p : PyVal → Bool) : List (List (String × PyVal)) → Bool
  | [] => true
  | item :: rest => item.all (fun kv => p kv.2) && slotsOKItems p rest

end

/-- Slot values whose conversion by `encodeSlot` yields only JSON primitives:
anything except Python None and except dicts that do not already consist of
JSON primitives (None and dicts are passed through _encode_rrset unchanged). -/
def goodSlotVal : PyVal → Bool
  | .pynone => false
  | .dict kvs => isJsonPairs kvs
  | _ => true

/-- Slot values that are not dicts (dicts are the one shape _encode_rrset
passes through with their keys unfiltered). -/
def notDictVal : PyVal → Bool
  | .dict _ => false
  | _ => true

/-- Output shapes `encodeSlot` produces from non-dict, non-None slot values:
an int, a bool, a string, or a list of strings. -/
def isFlatOut : PyVal → Bool
  | .int _ => true
  | .bool _ => true
  | .str _ => true
  | .pyList xs => xs.all (fun x => match x with | .str _ => true | _ => false)
  | _ => false

/-! ### Basic lemmas about the embedding -/

theorem exceptMap_eq_ok {α β : Type} {e : Except EncErr α} {f : α → β} {b : β} :
    e.map f = .ok b ↔ ∃ a, e = .ok a ∧ b = f a := by
  cases e <;> simp [Except.map, eq_comm]

theorem encBind_ok {α β : Type} (a : α) (f : α → Except EncErr β) :
    (Except.ok a >>= f) = f a := rfl

theorem encBind_error {α β : Type} (e : EncErr) (f : α → Except EncErr β) :
    ((Except.error e : Except EncErr α) >>= f) = Except.error e := rfl

theorem encBind_pure {α β : Type} (a : α) (f : α → Except EncErr β) :
    ((pure a : Except EncErr α) >>= f) = f a := rfl

theorem encPure_eq_ok {α : Type} (a : α) : (pure a : Except EncErr α) = Except.ok a := rfl

theorem encThrow_bind {α β : Type} (e : EncErr) (f : α → Except EncErr β) :
    ((throw e : Except EncErr α) >>= f) = Except.error e := rfl

theorem encThrow_eq_error {α : Type} (e : EncErr) :
    (throw e : Except EncErr α) = Except.error e := rfl

theorem isJsonList_iff {xs : List PyVal} :
    isJsonList xs = true ↔ ∀ x ∈ xs, isJsonValue x = true := by
  induction xs with
  | nil => simp [isJsonList]
  | cons x xs ih => simp [isJsonList, ih]

theorem isJsonPairs_iff {kvs : List (String × PyVal)} :
    isJsonPairs kvs = true ↔ ∀ kv ∈ kvs, isJsonValue kv.2 = true := by
  induction kvs with
  | nil => simp [isJsonPairs]
  | cons kv rest ih => simp [isJsonPairs, ih]

theorem noKeyList_iff {key : String} {xs : List PyVal} :
    noKeyList key xs = true ↔ ∀ x ∈ xs, noKey key x = true := by
  induction xs with
  | nil => simp [noKeyList]
  | cons x xs ih => simp [noKeyList, ih]

theorem noKeyPairs_iff {key : String} {kvs : List (String × PyVal)} :
    noKeyPairs key kvs = true ↔
      ∀ kv ∈ kvs, kv.1 ≠ key ∧ noKey key kv.2 = true := by
  induction kvs with
  | nil => simp [noKeyPairs]
  | cons kv rest ih => simp [noKeyPairs, ih, and_assoc]

theorem noKeyItems_iff {key : String} {items : List (List (String × PyVal))} :
    noKeyItems key items = true ↔ ∀ item ∈ items, noKeyPairs key item = true := by
  induction items with
  | nil => simp [noKeyItems]
  | cons item rest ih => simp [noKeyItems, ih]

theorem slotsOKList_iff {p : PyVal → Bool} {xs : List PyVal} :
    slotsOKList p xs = true ↔ ∀ x ∈ xs, slotsOK p x = true := by
  induction xs with
  | nil => simp [slotsOKList]
  | cons x xs ih => simp [slotsOKList, ih]

theorem slotsOKPairs_iff {p : PyVal → Bool} {kvs : List (String × PyVal)} :
    slotsOKPairs p kvs = true ↔ ∀ kv ∈ kvs, slotsOK p kv.2 = true := by
  induction kvs with
  | nil => simp [slotsOKPairs]
  | cons kv rest ih => simp [slotsOKPairs, ih]

theorem slotsOKItems_iff {p : PyVal → Bool} {items : List (List (String × PyVal))} :
    slotsOKItems p items = true ↔ ∀ item ∈ items, ∀ kv ∈ item, p kv.2 = true := by
  induction items with
  | nil => simp [slotsOKItems]
  | cons item rest ih => simp [slotsOKItems, ih, List.all_eq_true]

theorem robustEncodeList_ok {skip : List String} {xs ys : List PyVal} :
    robustEncodeList skip xs = .ok ys ↔
      List.Forall₂ (fun x y => robustEncode skip x = .ok y) xs ys := by
  induction xs generalizing ys with
  | nil =>
    simp only [robustEncodeList, List.forall₂_nil_left_iff]
    constructor
    · intro h; cases h; rfl
    · intro h; subst h; rfl
  | cons x xs ih =>
    simp only [robustEncodeList]
    cases hx : robustEncode skip x with
    | error e =>
      simp only [encBind_error]
      constructor
      · intro h; cases h
      · intro h; cases h with
        | cons hxy _ => rw [hx] at hxy; cases hxy
    | ok y =>
      simp only [encBind_ok]
      cases hrest : robustEncodeList skip xs with
      | error e =>
        simp only [encBind_error]
        constructor
        · intro h; cases h
        · intro h
          cases h with
          | cons hxy htail =>
            rw [← ih] at htail
            rw [hrest] at htail; cases htail
      | ok ys2 =>
        simp only [encBind_ok]
        constructor
        · intro h
          cases h
          exact List.Forall₂.cons hx (ih.mp hrest)
        · intro h
          cases h with
          | cons hxy htail =>
            rw [hx] at hxy
            cases hxy
            rw [← ih] at htail
            rw [hrest] at htail
            cases htail
            rfl

theorem robustEncodeDict_ok {skip : List String} {kvs ws : List (String × PyVal)} :
    robustEncodeDict skip kvs = .ok ws ↔
      List.Forall₂ (fun kv w => w.1 = kv.1 ∧ robustEncode skip kv.2 = .ok w.2)
        (kvs.filter (fun kv => decide (kv.1 ∉ skip))) ws := by
  induction kvs generalizing ws with
  | nil =>
    simp only [robustEncodeDict, List.filter_nil, List.forall₂_nil_left_iff]
    constructor
    · intro h; cases h; rfl
    · intro h; subst h; rfl
  | cons kv rest ih =>
    obtain ⟨k, v⟩ := kv
    by_cases hk : k ∈ skip
    · simpa [robustEncodeDict, hk, List.filter_cons] using ih
    · have hfil : (decide ¬k ∈ skip) = true := by simp [hk]
      simp only [robustEncodeDict, List.filter_cons, hfil, if_true, if_neg hk]
      cases hv : robustEncode skip v with
      | error e =>
        simp only [encBind_error]
        constructor
        · intro h; cases h
        · intro h
          cases h with
          | cons hw htail =>
            rw [hv] at hw
            exact absurd hw.2 (by simp)
      | ok v2 =>
        simp only [encBind_ok]
        cases hrest : robustEncodeDict skip rest with
        | error e =>
          simp only [encBind_error]
          constructor
          · intro h; cases h
          · intro h
            cases h with
            | cons hw htail =>
              rw [← ih, hrest] at htail
              cases htail
        | ok ws2 =>
          simp only [encBind_ok]
          constructor
          · intro h
            cases h
            exact List.Forall₂.cons ⟨rfl, hv⟩ (ih.mp hrest)
          · intro h
            cases h with
            | cons hw htail =>
              rename_i w ws'
              obtain ⟨w1, w2⟩ := w
              obtain ⟨hw1, hw2⟩ := hw
              simp only at hw1 hw2
              subst hw1
              rw [hv] at hw2
              cases hw2
              rw [← ih, hrest] at htail
              cases htail
              rfl

theorem encodeRRitems_ok {skip : List String} {ttl : Int} {items : List Rdata}
    {rs : List PyVal} :
    encodeRRitems skip ttl items = .ok rs ↔
      List.Forall₂
        (fun item r => ∃ kvs, encodeItem skip ttl item = .ok kvs ∧ r = PyVal.dict kvs)
        items rs := by
  induction items generalizing rs with
  | nil =>
    simp only [encodeRRitems, List.forall₂_nil_left_iff]
    constructor
    · intro h; cases h; rfl
    · intro h; subst h; rfl
  | cons item rest ih =>
    simp only [encodeRRitems]
    cases hit : encodeItem skip ttl item with
    | error e =>
      simp only [encBind_error]
      constructor
      · intro h; cases h
      · intro h
        cases h with
        | cons hw htail =>
          obtain ⟨kvs, hkvs, _⟩ := hw
          rw [hit] at hkvs
          cases hkvs
    | ok kvs =>
      simp only [encBind_ok]
      cases hrest : encodeRRitems skip ttl rest with
      | error e =>
        simp only [encBind_error]
        constructor
        · intro h; cases h
        · intro h
          cases h with
          | cons hw htail =>
            rw [← ih, hrest] at htail
            cases htail
      | ok rs2 =>
        simp only [encBind_ok]
        constructor
        · intro h
          cases h
          exact List.Forall₂.cons ⟨kvs, hit, rfl⟩ (ih.mp hrest)
        · intro h
          cases h with
          | cons hw htail =>
            obtain ⟨kvs2, hkvs2, hr⟩ := hw
            rw [hit] at hkvs2
            cases hkvs2
            subst hr
            rw [← ih, hrest] at htail
            cases htail
            rfl

theorem dictInsert_keys_mem {d : List (String × PyVal)} {k : String} {v : PyVal}
    {k2 : String} :
    k2 ∈ (dictInsert d k v).map Prod.fst ↔ k2 ∈ d.map Prod.fst ∨ k2 = k := by
  unfold dictInsert
  by_cases h : d.any (fun kv => kv.1 == k)
  · rw [if_pos h]
    have hkeys : (d.map (fun kv => if kv.1 == k then (k, v) else kv)).map Prod.fst =
        d.map Prod.fst := by
      rw [List.map_map]
      apply List.map_congr_left
      intro kv _
      by_cases hkv : kv.1 = k
      · simp [Function.comp_apply, hkv]
      · simp [Function.comp_apply, hkv]
    rw [hkeys]
    obtain ⟨kv0, hkv0, hbeq⟩ := List.any_eq_true.mp h
    have hk0 : kv0.1 = k := eq_of_beq hbeq
    constructor
    · exact Or.inl
    · rintro (hmem | heq)
      · exact hmem
      · subst heq
        exact hk0 ▸ List.mem_map.mpr ⟨kv0, hkv0, rfl⟩
  · rw [if_neg h]
    simp [List.map_append]

theorem dictInsert_values {P : PyVal → Prop} {d : List (String × PyVal)} {k : String}
    {v : PyVal} (hd : ∀ kv ∈ d, P kv.2) (hv : P v) :
    ∀ kv ∈ dictInsert d k v, P kv.2 := by
  intro kv hkv
  unfold dictInsert at hkv
  by_cases h : d.any (fun kv => kv.1 == k)
  · rw [if_pos h] at hkv
    obtain ⟨kv0, hkv0, heq⟩ := List.mem_map.mp hkv
    by_cases h0 : kv0.1 == k
    · rw [if_pos h0] at heq
      subst heq
      exact hv
    · rw [if_neg h0] at heq
      subst heq
      exact hd _ hkv0
  · rw [if_neg h] at hkv
    rcases List.mem_append.mp hkv with h1 | h2
    · exact hd _ h1
    · simp only [List.mem_singleton] at h2
      subst h2
      exact hv

theorem find?_overwrite {d : List (String × PyVal)} {k k2 : String} {v : PyVal}
    (hne : k2 ≠ k) :
    List.find? (fun kv => kv.1 == k2) (d.map (fun kv => if kv.1 == k then (k, v) else kv)) =
      List.find? (fun kv => kv.1 == k2) d := by
  induction d with
  | nil => rfl
  | cons kv0 rest ih =>
    simp only [List.map_cons, List.find?_cons]
    by_cases h0 : kv0.1 == k
    · have hk0 : kv0.1 = k := eq_of_beq h0
      rw [if_pos h0]
      have h1 : ((k, v).1 == k2) = false := by simp [(Ne.symm hne)]
      have h2 : (kv0.1 == k2) = false := by simp [hk0, Ne.symm hne]
      simp only [h1, h2]
      exact ih
    · rw [if_neg h0]
      by_cases h2 : kv0.1 == k2
      · simp only [h2]
      · simp only [h2]
        exact ih

theorem lookupKey_dictInsert_ne {d : List (String × PyVal)} {k k2 : String} {v : PyVal}
    (hne : k2 ≠ k) : lookupKey (dictInsert d k v) k2 = lookupKey d k2 := by
  unfold dictInsert lookupKey
  by_cases h : d.any (fun kv => kv.1 == k)
  · rw [if_pos h, find?_overwrite hne]
  · rw [if_neg h, List.find?_append]
    have hf : (k == k2) = false := beq_eq_false_iff_ne.mpr (Ne.symm hne)
    have : List.find? (fun kv => kv.1 == k2) [(k, v)] = none := by
      simp [List.find?, hf]
    rw [this]
    simp

theorem dedupKeysGo_subset {seen : List String} {l : List (String × PyVal)} :
    ∀ kv ∈ dedupKeysGo seen l, kv ∈ l := by
  induction l generalizing seen with
  | nil => simp [dedupKeysGo]
  | cons kv0 rest ih =>
    simp only [dedupKeysGo]
    by_cases h : kv0.1 ∈ seen
    · rw [if_pos h]
      intro kv hkv
      exact List.mem_cons_of_mem _ (ih _ hkv)
    · rw [if_neg h]
      intro kv hkv
      rcases List.mem_cons.mp hkv with h1 | h2
      · exact h1 ▸ List.mem_cons_self _ _
      · exact List.mem_cons_of_mem _ (ih _ h2)

theorem dedupKeysGo_keys {l : List (String × PyVal)} {seen : List String} {k : String} :
    k ∈ (dedupKeysGo seen l).map Prod.fst ↔ k ∈ l.map Prod.fst ∧ k ∉ seen := by
  induction l generalizing seen with
  | nil => simp [dedupKeysGo]
  | cons kv0 rest ih =>
    simp only [dedupKeysGo, List.map_cons, List.mem_cons]
    by_cases h : kv0.1 ∈ seen
    · rw [if_pos h, ih]
      constructor
      · rintro ⟨hr, hs⟩
        exact ⟨Or.inr hr, hs⟩
      · rintro ⟨hk0 | hr, hs⟩
        · subst hk0; exact absurd h hs
        · exact ⟨hr, hs⟩
    · rw [if_neg h]
      simp only [List.map_cons, List.mem_cons, ih, List.mem_cons]
      constructor
      · rintro (hk0 | ⟨hr, hs⟩)
        · subst hk0; exact ⟨Or.inl rfl, h⟩
        · refine ⟨Or.inr hr, ?_⟩
          intro hks
          exact hs (Or.inr hks)
      · rintro ⟨hk0 | hr, hs⟩
        · exact Or.inl hk0
        · by_cases hk0 : k = kv0.1
          · exact Or.inl hk0
          · exact Or.inr ⟨hr, by simp [hk0, hs]⟩

theorem dedupKeys_subset {l : List (String × PyVal)} :
    ∀ kv ∈ dedupKeys l, kv ∈ l :=
  dedupKeysGo_subset

theorem dedupKeys_keys {l : List (String × PyVal)} {k : String} :
    k ∈ (dedupKeys l).map Prod.fst ↔ k ∈ l.map Prod.fst := by
  unfold dedupKeys
  rw [dedupKeysGo_keys]
  simp

theorem encodeSlots_ok_keys {skip : List String} {slots record out : List (String × PyVal)}
    (h : encodeSlots skip record slots = .ok out) :
    ∀ k, k ∈ out.map Prod.fst ↔
      (k ∈ record.map Prod.fst ∨ (k ∈ slots.map Prod.fst ∧ k ∉ skip)) := by
  induction slots generalizing record with
  | nil =>
    simp only [encodeSlots] at h
    cases h
    simp
  | cons kv rest ih =>
    obtain ⟨k0, v0⟩ := kv
    simp only [encodeSlots] at h
    by_cases hk : k0 ∈ skip
    · rw [if_pos hk] at h
      intro k
      rw [ih h k]
      simp only [List.map_cons, List.mem_cons]
      constructor
      · rintro (hr | ⟨hs, hns⟩)
        · exact Or.inl hr
        · exact Or.inr ⟨Or.inr hs, hns⟩
      · rintro (hr | ⟨hek | hs, hns⟩)
        · exact Or.inl hr
        · subst hek; exact absurd hk hns
        · exact Or.inr ⟨hs, hns⟩
    · rw [if_neg hk] at h
      cases hv : encodeSlot v0 with
      | error e =>
        rw [hv, encBind_error] at h
        cases h
      | ok v2 =>
        rw [hv, encBind_ok] at h
        intro k
        rw [ih h k, dictInsert_keys_mem]
        simp only [List.map_cons, List.mem_cons]
        constructor
        · rintro ((hr | hek) | ⟨hs, hns⟩)
          · exact Or.inl hr
          · subst hek; exact Or.inr ⟨Or.inl rfl, hk⟩
          · exact Or.inr ⟨Or.inr hs, hns⟩
        · rintro (hr | ⟨hek | hs, hns⟩)
          · exact Or.inl (Or.inl hr)
          · subst hek; exact Or.inl (Or.inr rfl)
          · exact Or.inr ⟨hs, hns⟩

theorem encodeSlots_values {P : PyVal → Prop} {skip : List String}
    {slots record out : List (String × PyVal)}
    (hrec : ∀ kv ∈ record, P kv.2)
    (hslots : ∀ kv ∈ slots, kv.1 ∉ skip → ∀ v2, encodeSlot kv.2 = .ok v2 → P v2)
    (h : encodeSlots skip record slots = .ok out) :
    ∀ kv ∈ out, P kv.2 := by
  induction slots generalizing record with
  | nil =>
    simp only [encodeSlots] at h
    cases h
    exact hrec
  | cons kv0 rest ih =>
    obtain ⟨k0, v0⟩ := kv0
    simp only [encodeSlots] at h
    by_cases hk : k0 ∈ skip
    · rw [if_pos hk] at h
      exact ih hrec (fun kv hkv => hslots kv (List.mem_cons_of_mem _ hkv)) h
    · rw [if_neg hk] at h
      cases hv : encodeSlot v0 with
      | error e =>
        rw [hv, encBind_error] at h
        cases h
      | ok v2 =>
        rw [hv, encBind_ok] at h
        have hv2 : P v2 := hslots (k0, v0) (List.mem_cons_self _ _) hk v2 hv
        exact ih (dictInsert_values hrec hv2)
          (fun kv hkv => hslots kv (List.mem_cons_of_mem _ hkv)) h

theorem encodeSlots_lookup {skip : List String} {slots record out : List (String × PyVal)}
    {k : String}
    (hk : ∀ kv ∈ slots, kv.1 ≠ k)
    (h : encodeSlots skip record slots = .ok out) :
    lookupKey out k = lookupKey record k := by
  induction slots generalizing record with
  | nil =>
    simp only [encodeSlots] at h
    cases h
    rfl
  | cons kv0 rest ih =>
    obtain ⟨k0, v0⟩ := kv0
    simp only [encodeSlots] at h
    by_cases hk0 : k0 ∈ skip
    · rw [if_pos hk0] at h
      exact ih (fun kv hkv => hk kv (List.mem_cons_of_mem _ hkv)) h
    · rw [if_neg hk0] at h
      cases hv : encodeSlot v0 with
      | error e =>
        rw [hv, encBind_error] at h
        cases h
      | ok v2 =>
        rw [hv, encBind_ok] at h
        have hne : k ≠ k0 := Ne.symm (hk (k0, v0) (List.mem_cons_self _ _))
        rw [ih (fun kv hkv => hk kv (List.mem_cons_of_mem _ hkv)) h,
          lookupKey_dictInsert_ne hne]

theorem sizeOf_mem_list {x : PyVal} {xs : List PyVal} (h : x ∈ xs) :
    sizeOf x < 1 + sizeOf xs := by
  have := List.sizeOf_lt_of_mem h
  omega

theorem sizeOf_mem_pairs {kv : String × PyVal} {kvs : List (String × PyVal)} (h : kv ∈ kvs) :
    sizeOf kv.2 < 1 + sizeOf kvs := by
  have h1 := List.sizeOf_lt_of_mem h
  obtain ⟨a, b⟩ := kv
  simp only [Prod.mk.sizeOf_spec] at h1
  show sizeOf b < 1 + sizeOf kvs
  omega

theorem pyval_strong_ind {P : PyVal → Prop}
    (h : ∀ v, (∀ w, sizeOf w < sizeOf v → P w) → P v) : ∀ v, P v := by
  have aux : ∀ n v, sizeOf v ≤ n → P v := by
    intro n
    induction n with
    | zero =>
      intro v hv
      exact h v (fun w hw => absurd (Nat.lt_of_lt_of_le hw hv) (Nat.not_lt_zero _))
    | succ n ih =>
      intro v hv
      exact h v (fun w hw => ih w (Nat.le_of_lt_succ (Nat.lt_of_lt_of_le hw hv)))
  exact fun v => aux (sizeOf v) v le_rfl

theorem isJsonList_map_str (ss : List String) : isJsonList (ss.map PyVal.str) = true := by
  induction ss with
  | nil => simp [isJsonList]
  | cons s ss ih => simp [isJsonList, isJsonValue, ih]

theorem noKeyList_map_str (key : String) (ss : List String) :
    noKeyList key (ss.map PyVal.str) = true := by
  induction ss with
  | nil => simp [noKeyList]
  | cons s ss ih => simp [noKeyList, noKey, ih]

theorem encodeSlot_isJson {v v2 : PyVal} (hgood : goodSlotVal v = true)
    (h : encodeSlot v = .ok v2) : isJsonValue v2 = true := by
  cases v with
  | int n => cases h; simp [isJsonValue]
  | bool b => cases h; simp [isJsonValue]
  | str s => cases h; simp [isJsonValue]
  | rdtype n =>
    simp only [encodeSlot] at h
    cases hd : rdatatypeToText n with
    | some s => rw [hd] at h; cases h; simp [isJsonValue]
    | none => rw [hd] at h; cases h
  | bytes bs =>
    simp only [encodeSlot] at h
    cases hd : decodeUtf8 bs with
    | some s => rw [hd] at h; cases h; simp [isJsonValue]
    | none => rw [hd] at h; cases h
  | pySet xs =>
    simp only [encodeSlot, encBind_pure] at h
    cases hd : decodeBytesList xs with
    | ok ss =>
      rw [hd] at h
      simp only [encBind_ok, encBind_pure] at h
      cases h
      simp [isJsonValue, isJsonList_map_str]
    | error e => rw [hd, encBind_error] at h; cases h
  | tuple xs =>
    simp only [encodeSlot, encBind_pure] at h
    cases hd : decodeBytesList xs with
    | ok ss =>
      rw [hd] at h
      simp only [encBind_ok, encBind_pure] at h
      cases h
      simp [isJsonValue, isJsonList_map_str]
    | error e => rw [hd, encBind_error] at h; cases h
  | pyList xs =>
    simp only [encodeSlot, encBind_pure] at h
    cases hd : decodeBytesList xs with
    | ok ss =>
      rw [hd] at h
      simp only [encBind_ok, encBind_pure] at h
      cases h
      simp [isJsonValue, isJsonList_map_str]
    | error e => rw [hd, encBind_error] at h; cases h
  | dict kvs =>
    cases h
    simpa [goodSlotVal, isJsonValue] using hgood
  | withToText s => cases h; simp [isJsonValue]
  | pynone => simp [goodSlotVal] at hgood
  | rrset ttl items => cases h; simp [isJsonValue]

theorem encodeSlot_noKey {v v2 : PyVal} {key : String} (hnd : notDictVal v = true)
    (h : encodeSlot v = .ok v2) : noKey key v2 = true := by
  cases v with
  | int n => cases h; simp [noKey]
  | bool b => cases h; simp [noKey]
  | str s => cases h; simp [noKey]
  | rdtype n =>
    simp only [encodeSlot] at h
    cases hd : rdatatypeToText n with
    | some s => rw [hd] at h; cases h; simp [noKey]
    | none => rw [hd] at h; cases h
  | bytes bs =>
    simp only [encodeSlot] at h
    cases hd : decodeUtf8 bs with
    | some s => rw [hd] at h; cases h; simp [noKey]
    | none => rw [hd] at h; cases h
  | pySet xs =>
    simp only [encodeSlot, encBind_pure] at h
    cases hd : decodeBytesList xs with
    | ok ss =>
      rw [hd] at h
      simp only [encBind_ok, encBind_pure] at h
      cases h
      simp [noKey, noKeyList_map_str]
    | error e => rw [hd, encBind_error] at h; cases h
  | tuple xs =>
    simp only [encodeSlot, encBind_pure] at h
    cases hd : decodeBytesList xs with
    | ok ss =>
      rw [hd] at h
      simp only [encBind_ok, encBind_pure] at h
      cases h
      simp [noKey, noKeyList_map_str]
    | error e => rw [hd, encBind_error] at h; cases h
  | pyList xs =>
    simp only [encodeSlot, encBind_pure] at h
    cases hd : decodeBytesList xs with
    | ok ss =>
      rw [hd] at h
      simp only [encBind_ok, encBind_pure] at h
      cases h
      simp [noKey, noKeyList_map_str]
    | error e => rw [hd, encBind_error] at h; cases h
  | dict kvs => simp [notDictVal] at hnd
  | withToText s => cases h; simp [noKey]
  | pynone => cases h; simp [noKey]
  | rrset ttl items => cases h; simp [noKey]

theorem forall₂_mem_right {α β : Type} {R : α → β → Prop} {as : List α} {bs : List β}
    (h : List.Forall₂ R as bs) {b : β} (hb : b ∈ bs) : ∃ a ∈ as, R a b := by
  induction h with
  | nil => cases hb
  | cons hR htail ih =>
    rcases List.mem_cons.mp hb with h1 | h2
    · subst h1
      exact ⟨_, List.mem_cons_self _ _, hR⟩
    · obtain ⟨a, ha, hab⟩ := ih h2
      exact ⟨a, List.mem_cons_of_mem _ ha, hab⟩

theorem encodeItem_values {P : PyVal → Prop} {skip : List String} {ttl : Int}
    {slots : Rdata} {kvs : List (String × PyVal)}
    (httl : P (PyVal.int ttl))
    (hslots : ∀ kv ∈ slots, ∀ v2, encodeSlot kv.2 = .ok v2 → P v2)
    (h : encodeItem skip ttl slots = .ok kvs) :
    ∀ kv ∈ kvs, P kv.2 := by
  unfold encodeItem at h
  refine encodeSlots_values ?_ ?_ h
  · intro kv hkv
    simp only [List.mem_singleton] at hkv
    subst hkv
    exact httl
  · intro kv hkv _ v2 hv2
    exact hslots kv (dedupKeys_subset kv hkv) v2 hv2

theorem encodeItem_keys_ne {skip : List String} {ttl : Int} {slots : Rdata}
    {kvs : List (String × PyVal)} {key : String}
    (hkey : key ∈ skip) (httl : key ≠ "ttl")
    (h : encodeItem skip ttl slots = .ok kvs) :
    ∀ kv ∈ kvs, kv.1 ≠ key := by
  intro kv hkv heq
  have hmem : kv.1 ∈ kvs.map Prod.fst := List.mem_map_of_mem Prod.fst hkv
  rw [encodeSlots_ok_keys h] at hmem
  rcases hmem with hrec | ⟨_, hns⟩
  · simp only [List.map_cons, List.map_nil, List.mem_singleton] at hrec
    exact httl (heq ▸ hrec)
  · exact hns (heq ▸ hkey)

theorem robustEncode_isJson (skip : List String) :
    ∀ v, ∀ r, slotsOK goodSlotVal v = true → robustEncode skip v = .ok r →
      isJsonValue r = true := by
  apply pyval_strong_ind
    (P := fun v => ∀ r, slotsOK goodSlotVal v = true → robustEncode skip v = .ok r →
      isJsonValue r = true)
  intro v IH r hgood henc
  cases v with
  | int n =>
    simp only [robustEncode] at henc
    cases henc
    simp [isJsonValue]
  | bool b =>
    simp only [robustEncode] at henc
    cases henc
    simp [isJsonValue]
  | str s =>
    simp only [robustEncode] at henc
    cases henc
    simp [isJsonValue]
  | rdtype n =>
    simp only [robustEncode] at henc
    cases henc
    simp [isJsonValue]
  | withToText s =>
    simp only [robustEncode] at henc
    cases henc
    simp [isJsonValue]
  | pynone =>
    simp only [robustEncode] at henc
    cases henc
  | bytes bs =>
    simp only [robustEncode] at henc
    cases hd : decodeUtf8 bs with
    | some s => rw [hd] at henc; cases henc; simp [isJsonValue]
    | none => rw [hd] at henc; cases henc
  | pySet xs =>
    simp only [robustEncode] at henc
    obtain ⟨ys, hys, hr⟩ := exceptMap_eq_ok.mp henc
    subst hr
    simp only [isJsonValue]
    rw [isJsonList_iff]
    intro y hy
    obtain ⟨x, hx, hxy⟩ := forall₂_mem_right (robustEncodeList_ok.mp hys) hy
    simp only [slotsOK] at hgood
    have hsz : sizeOf x < sizeOf (PyVal.pySet xs) := by
      simp only [PyVal.pySet.sizeOf_spec]
      exact sizeOf_mem_list hx
    exact IH x hsz y (slotsOKList_iff.mp hgood x hx) hxy
  | pyList xs =>
    simp only [robustEncode] at henc
    obtain ⟨ys, hys, hr⟩ := exceptMap_eq_ok.mp henc
    subst hr
    simp only [isJsonValue]
    rw [isJsonList_iff]
    intro y hy
    obtain ⟨x, hx, hxy⟩ := forall₂_mem_right (robustEncodeList_ok.mp hys) hy
    simp only [slotsOK] at hgood
    have hsz : sizeOf x < sizeOf (PyVal.pyList xs) := by
      simp only [PyVal.pyList.sizeOf_spec]
      exact sizeOf_mem_list hx
    exact IH x hsz y (slotsOKList_iff.mp hgood x hx) hxy
  | tuple xs =>
    simp only [robustEncode] at henc
    obtain ⟨ys, hys, hr⟩ := exceptMap_eq_ok.mp henc
    subst hr
    simp only [isJsonValue]
    rw [isJsonList_iff]
    intro y hy
    obtain ⟨x, hx, hxy⟩ := forall₂_mem_right (robustEncodeList_ok.mp hys) hy
    simp only [slotsOK] at hgood
    have hsz : sizeOf x < sizeOf (PyVal.tuple xs) := by
      simp only [PyVal.tuple.sizeOf_spec]
      exact sizeOf_mem_list hx
    exact IH x hsz y (slotsOKList_iff.mp hgood x hx) hxy
  | dict kvs =>
    simp only [robustEncode] at henc
    obtain ⟨ws, hws, hr⟩ := exceptMap_eq_ok.mp henc
    subst hr
    simp only [isJsonValue]
    rw [isJsonPairs_iff]
    intro kv hkv
    obtain ⟨kv0, hkv0, hfst, hval⟩ := forall₂_mem_right (robustEncodeDict_ok.mp hws) hkv
    have hkv0mem : kv0 ∈ kvs := (List.mem_filter.mp hkv0).1
    simp only [slotsOK] at hgood
    have hsz : sizeOf kv0.2 < sizeOf (PyVal.dict kvs) := by
      simp only [PyVal.dict.sizeOf_spec]
      exact sizeOf_mem_pairs hkv0mem
    exact IH kv0.2 hsz kv.2 (slotsOKPairs_iff.mp hgood kv0 hkv0mem) hval
  | rrset ttl items =>
    simp only [robustEncode, encode_rrset] at henc
    obtain ⟨rs, hrs, hr⟩ := exceptMap_eq_ok.mp henc
    subst hr
    simp only [isJsonValue]
    rw [isJsonList_iff]
    intro r' hr'
    obtain ⟨item, hitem, kvs, hkvs, hrdict⟩ :=
      forall₂_mem_right (encodeRRitems_ok.mp hrs) hr'
    subst hrdict
    simp only [isJsonValue]
    rw [isJsonPairs_iff]
    simp only [slotsOK] at hgood
    refine encodeItem_values (P := fun v => isJsonValue v = true) (by simp [isJsonValue]) ?_ hkvs
    intro kv hkv v2 hv2
    exact encodeSlot_isJson (slotsOKItems_iff.mp hgood item hitem kv hkv) hv2

theorem robustEncode_noKey (skip : List String) (key : String) (hkey : key ∈ skip)
    (httl : key ≠ "ttl") :
    ∀ v, ∀ r, slotsOK notDictVal v = true → robustEncode skip v = .ok r →
      noKey key r = true := by
  apply pyval_strong_ind
    (P := fun v => ∀ r, slotsOK notDictVal v = true → robustEncode skip v = .ok r →
      noKey key r = true)
  intro v IH r hnd henc
  cases v with
  | int n =>
    simp only [robustEncode] at henc
    cases henc
    simp [noKey]
  | bool b =>
    simp only [robustEncode] at henc
    cases henc
    simp [noKey]
  | str s =>
    simp only [robustEncode] at henc
    cases henc
    simp [noKey]
  | rdtype n =>
    simp only [robustEncode] at henc
    cases henc
    simp [noKey]
  | withToText s =>
    simp only [robustEncode] at henc
    cases henc
    simp [noKey]
  | pynone =>
    simp only [robustEncode] at henc
    cases henc
  | bytes bs =>
    simp only [robustEncode] at henc
    cases hd : decodeUtf8 bs with
    | some s => rw [hd] at henc; cases henc; simp [noKey]
    | none => rw [hd] at henc; cases henc
  | pySet xs =>
    simp only [robustEncode] at henc
    obtain ⟨ys, hys, hr⟩ := exceptMap_eq_ok.mp henc
    subst hr
    simp only [noKey]
    rw [noKeyList_iff]
    intro y hy
    obtain ⟨x, hx, hxy⟩ := forall₂_mem_right (robustEncodeList_ok.mp hys) hy
    simp only [slotsOK] at hnd
    have hsz : sizeOf x < sizeOf (PyVal.pySet xs) := by
      simp only [PyVal.pySet.sizeOf_spec]
      exact sizeOf_mem_list hx
    exact IH x hsz y (slotsOKList_iff.mp hnd x hx) hxy
  | pyList xs =>
    simp only [robustEncode] at henc
    obtain ⟨ys, hys, hr⟩ := exceptMap_eq_ok.mp henc
    subst hr
    simp only [noKey]
    rw [noKeyList_iff]
    intro y hy
    obtain ⟨x, hx, hxy⟩ := forall₂_mem_right (robustEncodeList_ok.mp hys) hy
    simp only [slotsOK] at hnd
    have hsz : sizeOf x < sizeOf (PyVal.pyList xs) := by
      simp only [PyVal.pyList.sizeOf_spec]
      exact sizeOf_mem_list hx
    exact IH x hsz y (slotsOKList_iff.mp hnd x hx) hxy
  | tuple xs =>
    simp only [robustEncode] at henc
    obtain ⟨ys, hys, hr⟩ := exceptMap_eq_ok.mp henc
    subst hr
    simp only [noKey]
    rw [noKeyList_iff]
    intro y hy
    obtain ⟨x, hx, hxy⟩ := forall₂_mem_right (robustEncodeList_ok.mp hys) hy
    simp only [slotsOK] at hnd
    have hsz : sizeOf x < sizeOf (PyVal.tuple xs) := by
      simp only [PyVal.tuple.sizeOf_spec]
      exact sizeOf_mem_list hx
    exact IH x hsz y (slotsOKList_iff.mp hnd x hx) hxy
  | dict kvs =>
    simp only [robustEncode] at henc
    obtain ⟨ws, hws, hr⟩ := exceptMap_eq_ok.mp henc
    subst hr
    simp only [noKey]
    rw [noKeyPairs_iff]
    intro kv hkv
    obtain ⟨kv0, hkv0, hfst, hval⟩ := forall₂_mem_right (robustEncodeDict_ok.mp hws) hkv
    have hkv0mem : kv0 ∈ kvs := (List.mem_filter.mp hkv0).1
    have hkv0skip : kv0.1 ∉ skip := by
      have := (List.mem_filter.mp hkv0).2
      simpa using this
    constructor
    · rw [hfst]
      intro heq
      exact hkv0skip (heq ▸ hkey)
    · simp only [slotsOK] at hnd
      have hsz : sizeOf kv0.2 < sizeOf (PyVal.dict kvs) := by
        simp only [PyVal.dict.sizeOf_spec]
        exact sizeOf_mem_pairs hkv0mem
      exact IH kv0.2 hsz kv.2 (slotsOKPairs_iff.mp hnd kv0 hkv0mem) hval
  | rrset ttl items =>
    simp only [robustEncode, encode_rrset] at henc
    obtain ⟨rs, hrs, hr⟩ := exceptMap_eq_ok.mp henc
    subst hr
    simp only [noKey]
    rw [noKeyList_iff]
    intro r' hr'
    obtain ⟨item, hitem, kvs, hkvs, hrdict⟩ :=
      forall₂_mem_right (encodeRRitems_ok.mp hrs) hr'
    subst hrdict
    simp only [noKey]
    rw [noKeyPairs_iff]
    simp only [slotsOK] at hnd
    intro kv hkv
    constructor
    · exact encodeItem_keys_ne hkey httl hkvs kv hkv
    · refine encodeItem_values (P := fun v => noKey key v = true) (by simp [noKey]) ?_ hkvs kv hkv
      intro kv2 hkv2 v2 hv2
      exact encodeSlot_noKey (slotsOKItems_iff.mp hnd item hitem kv2 hkv2) hv2

theorem encode_rrset_ok_robustEncode {skip : List String} {v r : PyVal}
    (h : encode_rrset skip v = .ok r) : robustEncode skip v = .ok r := by
  cases v with
  | rrset ttl items =>
    simp only [robustEncode]
    exact h
  | int n =>
    simp only [encode_rrset] at h
    cases h
  | bool b =>
    simp only [encode_rrset] at h
    cases h
  | str s =>
    simp only [encode_rrset] at h
    cases h
  | bytes bs =>
    simp only [encode_rrset] at h
    cases h
  | pySet xs =>
    simp only [encode_rrset] at h
    cases h
  | pyList xs =>
    simp only [encode_rrset] at h
    cases h
  | tuple xs =>
    simp only [encode_rrset] at h
    cases h
  | dict kvs =>
    simp only [encode_rrset] at h
    cases h
  | rdtype n =>
    simp only [encode_rrset] at h
    cases h
  | withToText s =>
    simp only [encode_rrset] at h
    cases h
  | pynone =>
    simp only [encode_rrset] at h
    cases h

/-! ### Claim theorems -/

/-- C1, counterexample: the claim that every value returned by the encoder
consists only of JSON primitives is false.  A slot value that is not of a
known type — here Python None in a slot named "foo" — is passed through by
DNSEncoder._encode_rrset unchanged (encoder.py line 152 runs even when the
KNOWN_TYPES check at line 140 fails), so the result contains a node that is
not a JSON primitive. -/
theorem c1_counterexample :
    encode_rrset (skipkeysOf false) (PyVal.rrset 300 [[("foo", PyVal.pynone)]]) =
      .ok (PyVal.pyList [PyVal.dict [("ttl", PyVal.int 300), ("foo", PyVal.pynone)]]) ∧
    isJsonValue (PyVal.pyList [PyVal.dict [("ttl", PyVal.int 300), ("foo", PyVal.pynone)]])
      = false := by
  refine ⟨rfl, ?_⟩
  simp [isJsonValue, isJsonList, isJsonPairs]

/-- C1, amended: every value returned by DNSEncoder._robust_encode (and by
DNSEncoder._encode_rrset, whose successful results _robust_encode forwards
unchanged) consists only of JSON primitives, provided no RRset slot value in
the input is Python None and every dict-valued RRset slot already consists
only of JSON primitives (such slot values are passed through unchanged). -/
theorem c1_amended_json_output (skip : List String) (v r : PyVal)
    (hgood : slotsOK goodSlotVal v = true)
    (henc : robustEncode skip v = .ok r ∨ encode_rrset skip v = .ok r) :
    isJsonValue r = true := by
  rcases henc with henc | henc
  · exact robustEncode_isJson skip v r hgood henc
  · exact robustEncode_isJson skip v r hgood (encode_rrset_ok_robustEncode henc)

/-- Witness for the amended C1 at a concrete input: a dictionary holding an
RRset whose single item has one bytes-valued slot. -/
theorem c1_amended_json_output_witness :
    isJsonValue (PyVal.dict [("a", PyVal.pyList [PyVal.dict
      [("ttl", PyVal.int 60), ("address", PyVal.str "1.2")]])]) = true :=
  c1_amended_json_output (skipkeysOf false)
    (PyVal.dict [("a", PyVal.rrset 60 [[("address", PyVal.bytes [49, 46, 50])]])])
    (PyVal.dict [("a", PyVal.pyList [PyVal.dict
      [("ttl", PyVal.int 60), ("address", PyVal.str "1.2")]])])
    (by simp [slotsOK, slotsOKPairs, slotsOKItems, goodSlotVal])
    (Or.inl (by simp [robustEncode, robustEncodeDict, skipkeysOf]; rfl))

/-- C2, counterexample: the claim that every returned dictionary maps 'ttl'
to the RRset's ttl attribute fails when an item itself has a slot named
'ttl': the slot assignment at encoder.py line 152 overwrites the hoisted
value from line 104. -/
theorem c2_counterexample :
    encode_rrset (skipkeysOf false) (PyVal.rrset 300 [[("ttl", PyVal.int 555)]]) =
      .ok (PyVal.pyList [PyVal.dict [("ttl", PyVal.int 555)]]) ∧
    lookupKey [("ttl", PyVal.int 555)] "ttl" ≠ some (PyVal.int 300) := by
  refine ⟨rfl, ?_⟩
  simp [lookupKey, List.find?]

/-- C2, amended: for every RRset whose items have no slot named 'ttl' (true
of every dnspython Rdata), every dictionary in the list returned by
DNSEncoder._encode_rrset contains the key 'ttl' bound to the ttl attribute of
the enclosing RRset. -/
theorem c2_amended_ttl_hoisting (skip : List String) (ttl : Int) (items : List Rdata)
    (r : PyVal)
    (hslots : ∀ item ∈ items, ∀ kv ∈ item, kv.1 ≠ "ttl")
    (henc : encode_rrset skip (PyVal.rrset ttl items) = .ok r) :
    ∃ rs, r = PyVal.pyList rs ∧
      ∀ rcd ∈ rs, ∃ kvs, rcd = PyVal.dict kvs ∧
        lookupKey kvs "ttl" = some (PyVal.int ttl) := by
  simp only [encode_rrset] at henc
  obtain ⟨rs, hrs, hr⟩ := exceptMap_eq_ok.mp henc
  refine ⟨rs, hr, ?_⟩
  intro rcd hrcd
  obtain ⟨item, hitem, kvs, hkvs, hrd⟩ := forall₂_mem_right (encodeRRitems_ok.mp hrs) hrcd
  refine ⟨kvs, hrd, ?_⟩
  unfold encodeItem at hkvs
  rw [encodeSlots_lookup (fun kv hkv => hslots item hitem kv (dedupKeys_subset kv hkv)) hkvs]
  rfl

/-- Witness for the amended C2 at a concrete input. -/
theorem c2_amended_ttl_hoisting_witness :
    ∃ rs, (PyVal.pyList [PyVal.dict [("ttl", PyVal.int 300), ("address", PyVal.str "x")]])
        = PyVal.pyList rs ∧
      ∀ rcd ∈ rs, ∃ kvs, rcd = PyVal.dict kvs ∧
        lookupKey kvs "ttl" = some (PyVal.int 300) :=
  c2_amended_ttl_hoisting (skipkeysOf false) 300 [[("address", PyVal.str "x")]]
    (PyVal.pyList [PyVal.dict [("ttl", PyVal.int 300), ("address", PyVal.str "x")]])
    (by simp) rfl

/-- C3: every bytes value encountered as a standalone node by
DNSEncoder._robust_encode or as a slot value by DNSEncoder._encode_rrset is
replaced by its UTF-8 decoding as a string. -/
theorem c3_bytes_utf8 (skip : List String) (bs : List Nat) (s : String)
    (hdec : decodeUtf8 bs = some s) :
    robustEncode skip (PyVal.bytes bs) = .ok (PyVal.str s) ∧
    encodeSlot (PyVal.bytes bs) = .ok (PyVal.str s) := by
  constructor
  · simp [robustEncode, hdec]
  · simp [encodeSlot, hdec, encPure_eq_ok, encBind_ok]

/-- Witness for C3 at a concrete input. -/
theorem c3_bytes_utf8_witness :
    robustEncode (skipkeysOf false) (PyVal.bytes [104, 105]) = .ok (PyVal.str "hi") ∧
    encodeSlot (PyVal.bytes [104, 105]) = .ok (PyVal.str "hi") :=
  c3_bytes_utf8 (skipkeysOf false) [104, 105] "hi" rfl

/-- C4: DNSEncoder._robust_encode turns sets, lists and tuples into the list
of the recursive encodings of their elements (in order), and turns a dict
into a mapping with the same keys minus the skipped ones, each value replaced
by its recursive encoding. -/
theorem c4_collection_traversal (skip : List String) (xs : List PyVal)
    (kvs : List (String × PyVal)) :
    (robustEncode skip (PyVal.pySet xs) = robustEncode skip (PyVal.pyList xs) ∧
     robustEncode skip (PyVal.tuple xs) = robustEncode skip (PyVal.pyList xs)) ∧
    (∀ r, robustEncode skip (PyVal.pyList xs) = .ok r ↔
      ∃ ys, r = PyVal.pyList ys ∧
        List.Forall₂ (fun x y => robustEncode skip x = .ok y) xs ys) ∧
    (∀ r, robustEncode skip (PyVal.dict kvs) = .ok r ↔
      ∃ ws, r = PyVal.dict ws ∧
        List.Forall₂ (fun kv w => w.1 = kv.1 ∧ robustEncode skip kv.2 = .ok w.2)
          (kvs.filter (fun kv => decide (kv.1 ∉ skip))) ws) := by
  refine ⟨⟨by simp [robustEncode], by simp [robustEncode]⟩, ?_, ?_⟩
  · intro r
    simp only [robustEncode]
    rw [exceptMap_eq_ok]
    constructor
    · rintro ⟨ys, hys, hr⟩
      exact ⟨ys, hr, robustEncodeList_ok.mp hys⟩
    · rintro ⟨ys, hr, hf⟩
      exact ⟨ys, robustEncodeList_ok.mpr hf, hr⟩
  · intro r
    simp only [robustEncode]
    rw [exceptMap_eq_ok]
    constructor
    · rintro ⟨ws, hws, hr⟩
      exact ⟨ws, hr, robustEncodeDict_ok.mp hws⟩
    · rintro ⟨ws, hr, hf⟩
      exact ⟨ws, robustEncodeDict_ok.mpr hf, hr⟩

/-- C5: DNSEncoder._encode_rrset returns one dictionary per RRset item, in
the order of the RRset's items iteration. -/
theorem c5_ordering (skip : List String) (ttl : Int) (items : List Rdata) (r : PyVal)
    (henc : encode_rrset skip (PyVal.rrset ttl items) = .ok r) :
    ∃ rs, r = PyVal.pyList rs ∧
      List.Forall₂ (fun item rcd => ∃ kvs, encodeItem skip ttl item = .ok kvs ∧
        rcd = PyVal.dict kvs) items rs := by
  simp only [encode_rrset] at henc
  obtain ⟨rs, hrs, hr⟩ := exceptMap_eq_ok.mp henc
  exact ⟨rs, hr, encodeRRitems_ok.mp hrs⟩

/-- Witness for C5 at a concrete input with two items. -/
theorem c5_ordering_witness :
    ∃ rs, (PyVal.pyList [PyVal.dict [("ttl", PyVal.int 7), ("a", PyVal.int 1)],
        PyVal.dict [("ttl", PyVal.int 7), ("b", PyVal.int 2)]]) = PyVal.pyList rs ∧
      List.Forall₂ (fun item rcd => ∃ kvs, encodeItem (skipkeysOf false) 7 item = .ok kvs ∧
        rcd = PyVal.dict kvs)
        [[("a", PyVal.int 1)], [("b", PyVal.int 2)]] rs :=
  c5_ordering (skipkeysOf false) 7 [[("a", PyVal.int 1)], [("b", PyVal.int 2)]]
    (PyVal.pyList [PyVal.dict [("ttl", PyVal.int 7), ("a", PyVal.int 1)],
      PyVal.dict [("ttl", PyVal.int 7), ("b", PyVal.int 2)]]) rfl

/-- C6: the keys of the dictionary DNSEncoder._encode_rrset builds for an
item are exactly the names from the item's _get_all_slots(), minus the
skipped keys, plus the added 'ttl' key. -/
theorem c6_slot_keys (skip : List String) (ttl : Int) (slots : Rdata)
    (kvs : List (String × PyVal)) (henc : encodeItem skip ttl slots = .ok kvs) :
    ∀ k, k ∈ kvs.map Prod.fst ↔
      (k = "ttl" ∨ (k ∈ slots.map Prod.fst ∧ k ∉ skip)) := by
  intro k
  unfold encodeItem at henc
  rw [encodeSlots_ok_keys henc k, dedupKeys_keys]
  simp

/-- Witness for C6 at a concrete input: an item with slots "rdcomment" (to be
skipped) and "address". -/
theorem c6_slot_keys_witness :
    "address" ∈ (([("ttl", PyVal.int 9), ("address", PyVal.str "x")] :
        List (String × PyVal)).map Prod.fst) ↔
      ("address" = "ttl" ∨ ("address" ∈ ([("rdcomment", PyVal.pynone), ("address", PyVal.str "x")] :
        Rdata).map Prod.fst ∧ "address" ∉ skipkeysOf false)) :=
  c6_slot_keys (skipkeysOf false) 9 [("rdcomment", PyVal.pynone), ("address", PyVal.str "x")]
    [("ttl", PyVal.int 9), ("address", PyVal.str "x")] rfl "address"

/-- C7: DNSEncoder._encode_rrset converts a RdataType slot value to its text
via dns.rdatatype.to_text, and raises ValueError exactly when that conversion
yields None. -/
theorem c7_rdatatype_totext (n : Nat) :
    (encodeSlot (PyVal.rdtype n) = .error EncErr.valueError ↔ rdatatypeToText n = none) ∧
    (∀ s, rdatatypeToText n = some s → encodeSlot (PyVal.rdtype n) = .ok (PyVal.str s)) := by
  constructor
  · cases hd : rdatatypeToText n with
    | some s => simp [encodeSlot, hd, encPure_eq_ok, encBind_ok]
    | none => simp [encodeSlot, hd, encThrow_bind]
  · intro s hs
    simp [encodeSlot, hs, encPure_eq_ok, encBind_ok]

/-- Witness for C7 at concrete inputs: type code 1 converts to "A", and a
code outside the 16-bit range makes the conversion yield None and the
encoder raise ValueError. -/
theorem c7_rdatatype_totext_witness :
    encodeSlot (PyVal.rdtype 1) = .ok (PyVal.str "A") ∧
    encodeSlot (PyVal.rdtype 70000) = .error EncErr.valueError :=
  ⟨(c7_rdatatype_totext 1).2 "A" rfl, (c7_rdatatype_totext 70000).1.mpr rfl⟩

/-- C8: when a slot value is (or becomes, after set/tuple conversion) a list,
DNSEncoder._encode_rrset keeps only the UTF-8 decodings of its bytes
elements; any non-bytes element is dropped, as the concrete final conjunct
shows for an int element. -/
theorem c8_list_keeps_only_bytes :
    (∀ xs : List PyVal, encodeSlot (PyVal.pySet xs) = encodeSlot (PyVal.pyList xs) ∧
      encodeSlot (PyVal.tuple xs) = encodeSlot (PyVal.pyList xs)) ∧
    (∀ xs ss, decodeBytesList xs = .ok ss →
      encodeSlot (PyVal.pyList xs) = .ok (PyVal.pyList (ss.map PyVal.str))) ∧
    (∀ x xs, (∀ bs, x ≠ PyVal.bytes bs) → decodeBytesList (x :: xs) = decodeBytesList xs) ∧
    encodeSlot (PyVal.pyList [PyVal.bytes [104, 105], PyVal.int 7]) =
      .ok (PyVal.pyList [PyVal.str "hi"]) := by
  refine ⟨fun xs => ⟨rfl, rfl⟩, ?_, ?_, rfl⟩
  · intro xs ss h
    simp [encodeSlot, h, encPure_eq_ok, encBind_ok]
  · intro x xs hx
    cases x with
    | bytes bs => exact absurd rfl (hx bs)
    | int n => rfl
    | bool b => rfl
    | str s => rfl
    | pySet ys => rfl
    | pyList ys => rfl
    | tuple ys => rfl
    | dict kvs => rfl
    | rdtype n => rfl
    | withToText s => rfl
    | pynone => rfl
    | rrset ttl items => rfl

/-- Witness for C8 at a concrete input: the int element is absent from the
encoded list. -/
theorem c8_list_keeps_only_bytes_witness :
    encodeSlot (PyVal.pyList [PyVal.bytes [104], PyVal.pynone]) =
      .ok (PyVal.pyList [PyVal.str "h"]) :=
  c8_list_keeps_only_bytes.2.1 [PyVal.bytes [104], PyVal.pynone] ["h"] rfl

/-- C9, counterexample: the claim that no produced dictionary contains the
key 'rdcomment' (with include_rdcomment False) fails: a dict-valued slot is
passed through DNSEncoder._encode_rrset unchanged with its keys unfiltered,
so a nested 'rdcomment' key survives into the output. -/
theorem c9_counterexample :
    encode_rrset (skipkeysOf false)
        (PyVal.rrset 60 [[("data", PyVal.dict [("rdcomment", PyVal.str "x")])]]) =
      .ok (PyVal.pyList [PyVal.dict [("ttl", PyVal.int 60),
        ("data", PyVal.dict [("rdcomment", PyVal.str "x")])]]) ∧
    noKey "rdcomment" (PyVal.pyList [PyVal.dict [("ttl", PyVal.int 60),
        ("data", PyVal.dict [("rdcomment", PyVal.str "x")])]]) = false := by
  refine ⟨rfl, ?_⟩
  simp [noKey, noKeyList, noKeyPairs]

/-- C9, amended: with include_rdcomment False, no dictionary produced by
DNSEncoder._robust_encode or DNSEncoder._encode_rrset contains the key
'rdcomment' at any level, provided no RRset slot value in the input is itself
a dict (dict slot values are passed through unchanged and may retain the
key). -/
theorem c9_amended_no_rdcomment (v r : PyVal)
    (hnd : slotsOK notDictVal v = true)
    (henc : robustEncode (skipkeysOf false) v = .ok r ∨
      encode_rrset (skipkeysOf false) v = .ok r) :
    noKey "rdcomment" r = true := by
  have hkey : "rdcomment" ∈ skipkeysOf false := by simp [skipkeysOf]
  have httl : "rdcomment" ≠ "ttl" := by decide
  rcases henc with henc | henc
  · exact robustEncode_noKey (skipkeysOf false) "rdcomment" hkey httl v r hnd henc
  · exact robustEncode_noKey (skipkeysOf false) "rdcomment" hkey httl v r hnd
      (encode_rrset_ok_robustEncode henc)

/-- Witness for the amended C9 at a concrete input: a dictionary whose
'rdcomment' key is filtered and which contains an RRset with a skipped
'rdcomment' slot. -/
theorem c9_amended_no_rdcomment_witness :
    noKey "rdcomment" (PyVal.dict [("a",
      PyVal.pyList [PyVal.dict [("ttl", PyVal.int 5), ("x", PyVal.int 1)]])]) = true :=
  c9_amended_no_rdcomment
    (PyVal.dict [("rdcomment", PyVal.pynone),
      ("a", PyVal.rrset 5 [[("rdcomment", PyVal.pynone), ("x", PyVal.int 1)]])])
    (PyVal.dict [("a",
      PyVal.pyList [PyVal.dict [("ttl", PyVal.int 5), ("x", PyVal.int 1)]])])
    (by simp [slotsOK, slotsOKPairs, slotsOKItems, notDictVal])
    (Or.inl (by simp [robustEncode, robustEncodeDict, skipkeysOf]; rfl))

/-- C10: dns_answer_to_json raises TypeError for every argument that is not a
dns.resolver.Answer (before touching the argument), and
DNSEncoder._encode_rrset raises TypeError for every argument that is not an
RRset. -/
theorem c10_type_errors (irb irc : Bool) (isoExp nowIso : String)
    (v : PyVal) (skip : List String)
    (hnot : ∀ ttl items, v ≠ PyVal.rrset ttl items) :
    dns_answer_to_json irb irc isoExp nowIso (PyArg.other v) = .error EncErr.typeError ∧
    encode_rrset skip v = .error EncErr.typeError := by
  refine ⟨rfl, ?_⟩
  cases v with
  | rrset ttl items => exact absurd rfl (hnot ttl items)
  | int n => rfl
  | bool b => rfl
  | str s => rfl
  | bytes bs => rfl
  | pySet xs => rfl
  | pyList xs => rfl
  | tuple xs => rfl
  | dict kvs => rfl
  | rdtype n => rfl
  | withToText s => rfl
  | pynone => rfl

/-- Witness for C10 at a concrete input: Python None. -/
theorem c10_type_errors_witness :
    dns_answer_to_json false false "" "" (PyArg.other PyVal.pynone) =
      .error EncErr.typeError ∧
    encode_rrset (skipkeysOf false) PyVal.pynone = .error EncErr.typeError :=
  c10_type_errors false false "" "" PyVal.pynone (skipkeysOf false)
    (fun _ _ h => PyVal.noConfusion h)

end Dnspyjson
